import Mathlib

/-!
Verification of the composite-sampler contracts described by the
ocean-composites training material: variable fixing (explicit and
roof-duality policies), sample-set merging, truncation, and input/output
tracking. The repository itself only invokes these components from the
external SDK, so each component is modelled here from its specified
contract and the properties are proved against that model.
-/

namespace OceanComposites

/-- Variables are opaque identifiers, encoded as naturals. -/
abbrev Var := Nat

/-- Modelled from the spec: an Assignment maps a subset of variables to
concrete domain values; represented as an association list. -/
abbrev Assignment := List (Var × Int)

/-- Lookup of a variable's value in an assignment (first match wins). -/
def lookupVar : Assignment → Var → Option Int
  | [], _ => none
  | (u, x) :: rest, v => if u = v then some x else lookupVar rest v

/-- Value of a variable under an assignment, defaulting to `0` when absent. -/
def evalAssign (a : Assignment) (v : Var) : Int := (lookupVar a v).getD 0

/-- Modelled from the spec: an Objective maps single variables to linear
coefficients and unordered variable pairs to quadratic coefficients, with a
scalar offset (a binary quadratic model with all variables materialised in
the linear table, as the SDK does). -/
structure Objective where
  linear : List (Var × Int)
  quadratic : List ((Var × Var) × Int)
  offset : Int
deriving DecidableEq

/-- The variables of an objective, in the order of its linear table. -/
def Objective.varList (o : Objective) : List Var := o.linear.map Prod.fst

/-- Energy of an objective at a (full) assignment. -/
def Objective.energy (o : Objective) (a : Assignment) : Int :=
  o.offset + (o.linear.map (fun p => p.2 * evalAssign a p.1)).sum
    + (o.quadratic.map (fun q => q.2 * evalAssign a q.1.1 * evalAssign a q.1.2)).sum

/-- Whether a variable is assigned by the fixed assignment. -/
def isFixed (fixed : Assignment) (v : Var) : Bool := (lookupVar fixed v).isSome

/-- Contribution of one quadratic entry to the adjusted linear coefficient of
a free variable `u`: a fixed neighbour `v` with coefficient `J(v, u)`
contributes `J(v, u) * value(v)`; unfixed neighbours contribute `0`. -/
def contribTo (fixed : Assignment) (u : Var) (q : (Var × Var) × Int) : Int :=
  (if q.1.1 = u then q.2 * evalAssign fixed q.1.2 else 0)
  + (if q.1.2 = u then q.2 * evalAssign fixed q.1.1 else 0)

/-- Modelled from the spec: the ReducedObjective over the variables not
fixed, with linear coefficients absorbing fixed neighbours (bias
propagation), quadratic terms between free variables kept unchanged, and the
offset absorbing the fully fixed terms. -/
def reduce (o : Objective) (fixed : Assignment) : Objective where
  linear := (o.linear.filter (fun p => !(isFixed fixed p.1))).map
    (fun p => (p.1, p.2 + (o.quadratic.map (contribTo fixed p.1)).sum))
  quadratic := o.quadratic.filter
    (fun q => !(isFixed fixed q.1.1) && !(isFixed fixed q.1.2))
  offset := o.offset
    + ((o.linear.filter (fun p => isFixed fixed p.1)).map
        (fun p => p.2 * evalAssign fixed p.1)).sum
    + ((o.quadratic.filter (fun q => isFixed fixed q.1.1 && isFixed fixed q.1.2)).map
        (fun q => q.2 * evalAssign fixed q.1.1 * evalAssign fixed q.1.2)).sum

/-- Error raised on bad or missing explicit fixed-variable input. -/
inductive FixError where
  | invalidFixing
deriving DecidableEq

/-- Modelled from the spec: the `explicit` policy of the VariableFixer. It
fixes exactly the variables named in the supplied Assignment and fails with
`InvalidFixingError` when no Assignment was supplied or a named variable is
not a variable of the Objective. -/
def fixExplicit (o : Objective) (fx : Option Assignment) :
    Except FixError (Assignment × Objective) :=
  match fx with
  | none => .error .invalidFixing
  | some f =>
    if f.all (fun p => decide (p.1 ∈ o.varList)) then .ok (f, reduce o f)
    else .error .invalidFixing

/-- Modelled from the spec: one entry of the roof-duality oracle's output,
giving a variable, a candidate fixed value, and whether that value is forced
in every optimal (ground-state) assignment. -/
structure OracleEntry where
  var : Var
  value : Int
  forced : Bool
deriving DecidableEq

/-- Modelled from the spec: the roof-duality oracle output, one entry per
variable for which a candidate value was found in some optimal assignment. -/
abbrev Oracle := List OracleEntry

/-- Modelled from the spec: the `roof_duality` policy of the VariableFixer.
Under `strict = true` only variables reported forced in every optimal
assignment are fixed; under `strict = false` every variable reported optimal
in at least one found optimal assignment is fixed. -/
def fixRoofDuality (oracle : Oracle) (strict : Bool) : Assignment :=
  if strict then (oracle.filter (fun e => e.forced)).map (fun e => (e.var, e.value))
  else oracle.map (fun e => (e.var, e.value))

/-- A sample: a full assignment annotated with its energy and an occurrence
count. -/
structure Sample where
  assignment : Assignment
  energy : Int
  numOcc : Nat
deriving DecidableEq

/-- A sample set is an ordered sequence of samples. -/
abbrev SampleSet := List Sample

/-- An inner sampler, as a collaborator: objective in, sample set out. -/
abbrev Sampler := Objective → SampleSet

/-- Modelled from the spec: the merge step re-inserts the fixed Assignment
into a sample and recomputes its energy with respect to the original
Objective. -/
def mergeSample (o : Objective) (fixed : Assignment) (s : Sample) : Sample where
  assignment := fixed ++ s.assignment
  energy := o.energy (fixed ++ s.assignment)
  numOcc := s.numOcc

/-- Merge the fixed assignment back into every sample of a sample set. -/
def mergeSampleSet (o : Objective) (fixed : Assignment) (ss : SampleSet) : SampleSet :=
  ss.map (mergeSample o fixed)

/-- Modelled from the spec: the FixVariables composite sampling step, given
an already computed fixed Assignment. When no free variable remains, the
inner sampler is not invoked and the single fixed sample is returned with
its energy computed directly; otherwise the inner sampler's result over the
ReducedObjective is merged back. -/
def fvSampleWith (inner : Sampler) (o : Objective) (fixed : Assignment) : SampleSet :=
  let r := reduce o fixed
  if r.varList = [] then
    [{ assignment := fixed, energy := o.energy fixed, numOcc := 1 }]
  else
    mergeSampleSet o fixed (inner r)

/-- Modelled from the spec: the FixVariables composite under the `explicit`
policy, end to end. -/
def fvSampleExplicit (inner : Sampler) (o : Objective) (fx : Option Assignment) :
    Except FixError SampleSet :=
  match fixExplicit o fx with
  | .error e => .error e
  | .ok (f, _) => .ok (fvSampleWith inner o f)

/-- Error raised on a negative truncation count. -/
inductive TruncError where
  | invalidCount
deriving DecidableEq

/-- Ascending order on samples by energy. -/
def energyLE (s t : Sample) : Prop := s.energy ≤ t.energy

instance : DecidableRel energyLE :=
  fun s t => inferInstanceAs (Decidable (s.energy ≤ t.energy))

instance : IsTotal Sample energyLE :=
  ⟨fun s t => Int.le_total s.energy t.energy⟩

instance : IsTrans Sample energyLE :=
  ⟨fun _ _ _ h1 h2 => le_trans h1 h2⟩

/-- Stable ascending sort of a sample set by energy. -/
def sortByEnergy (ss : SampleSet) : SampleSet := ss.insertionSort energyLE

/-- Modelled from the spec: the ResultFilter truncation. It fails with
`InvalidCountError` on a negative count and otherwise returns the first `n`
entries, after a stable ascending sort by energy when `sortedByEnergy` is
set and in original order otherwise. -/
def truncate (ss : SampleSet) (n : Int) (sortedByEnergy : Bool) :
    Except TruncError SampleSet :=
  if n < 0 then .error .invalidCount
  else .ok ((if sortedByEnergy then sortByEnergy ss else ss).take n.toNat)

/-- A heap of sample sets, used to make reference sharing and in-place
mutation explicit for the tracking component. -/
abbrev Heap := List SampleSet

/-- Read the sample set a reference points to. -/
def heapRead (h : Heap) (r : Nat) : SampleSet := h.getD r []

/-- Allocate a fresh cell holding a sample set, returning its reference. -/
def heapAlloc (h : Heap) (ss : SampleSet) : Nat × Heap := (h.length, h ++ [ss])

/-- In-place mutation of the cell a reference points to. -/
def heapWrite (h : Heap) (r : Nat) (ss : SampleSet) : Heap := h.set r ss

/-- Modelled from the spec: the tracking component's read-only state. It
records, for the most recent call only, the exact input argument and a
reference to the output sample set, together with the deep-copy flag. -/
structure Tracker where
  lastInput : Option Objective
  lastOutput : Option Nat
  copyFlag : Bool
deriving DecidableEq

/-- The recorded input of the most recent call. -/
def Tracker.inputRead (t : Tracker) : Option Objective := t.lastInput

/-- The recorded output of the most recent call, read through the heap. -/
def Tracker.outputRead (t : Tracker) (h : Heap) : Option SampleSet :=
  t.lastOutput.map (heapRead h)

/-- Modelled from the spec: one sampling call through the tracking
component. The child allocates its output in the heap; the tracker records
the input and, depending on the deep-copy flag, either a reference to a
fresh copy of the output or the child's own reference. -/
def trackedSample (child : Sampler) (t : Tracker) (o : Objective) (h : Heap) :
    Nat × Tracker × Heap :=
  let a := heapAlloc h (child o)
  if t.copyFlag then
    let b := heapAlloc a.2 (heapRead a.2 a.1)
    (a.1, ⟨some o, some b.1, t.copyFlag⟩, b.2)
  else
    (a.1, ⟨some o, some a.1, t.copyFlag⟩, a.2)

/-- Run a sequence of sampling calls through the tracking component. The
state carries the child's reference from the most recent call together with
the tracker and the heap. -/
def runCalls (child : Sampler) :
    List Objective → Nat × Tracker × Heap → Nat × Tracker × Heap
  | [], s => s
  | o :: os, s => runCalls child os (trackedSample child s.2.1 o s.2.2)

/-- Linear coefficient of a variable in an objective. -/
def linCoeff (o : Objective) (u : Var) : Int := (lookupVar o.linear u).getD 0

/-- The spin value of a Boolean choice in the Ising convention. -/
def spin (b : Bool) : Int := if b then 1 else -1

/-- The one-variable Ising objective with linear bias `1` on variable `a`
(encoded as `0`), from the notebook's explicit-fixing scenario. -/
def isingA : Objective := ⟨[(0, 1)], [], 0⟩

/-- The two-variable Ising objective with zero linear biases and quadratic
coefficient `-1` between `a` and `b` (encoded as `0` and `1`), from the
notebook's roof-duality scenario. -/
def objAB : Objective := ⟨[(0, 0), (1, 0)], [((0, 1), -1)], 0⟩

/-- Modelled from the spec: the roof-duality oracle's output on `objAB`. The
two degenerate ground states (both `+1` or both `-1`) mean no value is
forced in every optimal assignment, so both variables are reported with a
candidate value from one found optimal assignment (both `+1`) and the
forced flag unset. -/
def oracleAB : Oracle := [⟨0, 1, false⟩, ⟨1, 1, false⟩]

/-- A concrete sample with the higher energy, listed first. -/
def sampleHi : Sample := ⟨[(0, 1)], 2, 1⟩

/-- A concrete sample with the lower energy, listed second. -/
def sampleLo : Sample := ⟨[(0, -1)], 1, 1⟩

theorem lookupVar_append_of_isSome {a b : Assignment} {v : Var} {x : Int}
    (h : lookupVar a v = some x) : lookupVar (a ++ b) v = some x := by
  induction a with
  | nil => simp [lookupVar] at h
  | cons p rest ih =>
    obtain ⟨u, y⟩ := p
    by_cases hu : u = v
    · simp only [lookupVar, List.cons_append, if_pos hu] at h ⊢
      exact h
    · simp only [lookupVar, List.cons_append, if_neg hu] at h ⊢
      exact ih h

theorem contribTo_nil (u : Var) (q : (Var × Var) × Int) : contribTo [] u q = 0 := by
  simp [contribTo, evalAssign, lookupVar]

theorem sum_map_contrib_nil (quad : List ((Var × Var) × Int)) (u : Var) :
    (quad.map (contribTo [] u)).sum = 0 := by
  induction quad with
  | nil => rfl
  | cons q rest ih => simp [contribTo_nil, ih]

theorem isFixed_nil (v : Var) : isFixed [] v = false := rfl

theorem reduce_nil (o : Objective) : reduce o [] = o := by
  obtain ⟨lin, quad, off⟩ := o
  simp [reduce, isFixed_nil, sum_map_contrib_nil, List.filter_eq_self]

theorem reduce_varList (o : Objective) (fixed : Assignment) :
    (reduce o fixed).varList = o.varList.filter (fun v => !(isFixed fixed v)) := by
  simp only [reduce, Objective.varList, List.map_map]
  induction o.linear with
  | nil => rfl
  | cons p rest ih =>
    by_cases hp : isFixed fixed p.1
    · simp [List.filter_cons, hp, ih, Function.comp]
    · simp [List.filter_cons, hp, ih, Function.comp]

theorem lookupVar_isSome_of_mem {lin : List (Var × Int)} {u : Var}
    (hu : u ∈ lin.map Prod.fst) : ∃ y, lookupVar lin u = some y := by
  induction lin with
  | nil => simp at hu
  | cons p rest ih =>
    by_cases hp : p.1 = u
    · exact ⟨p.2, by simp [lookupVar, hp]⟩
    · have : u ∈ rest.map Prod.fst := by
        rcases List.mem_map.mp hu with ⟨q, hq, hqu⟩
        rcases List.mem_cons.mp hq with h | h
        · exact absurd (h ▸ hqu) hp
        · exact hqu ▸ List.mem_map_of_mem Prod.fst h
      obtain ⟨y, hy⟩ := ih this
      exact ⟨y, by simp [lookupVar, hp, hy]⟩

/-- C7: for every Objective, the `explicit` policy with an empty fixed
Assignment succeeds and returns the empty Assignment together with a
ReducedObjective equal to the original Objective (identity law). -/
theorem explicit_empty_fixing_identity (o : Objective) :
    fixExplicit o (some []) = .ok ([], o) := by
  simp [fixExplicit, reduce_nil]

/-- C6: for every SampleSet and integer count, truncation fails with
`InvalidCountError` exactly when the count is negative and succeeds
otherwise; the model is a pure function of its inputs, so no call mutates
the input SampleSet. -/
theorem truncate_error_iff_negative (ss : SampleSet) (n : Int) (b : Bool) :
    (truncate ss n b = .error .invalidCount ↔ n < 0)
      ∧ ((∃ out, truncate ss n b = .ok out) ↔ 0 ≤ n) := by
  unfold truncate
  by_cases h : n < 0
  · rw [if_pos h]
    refine ⟨⟨fun _ => h, fun _ => rfl⟩, ⟨fun hx => ?_, fun hx => absurd hx (by omega)⟩⟩
    obtain ⟨out, hout⟩ := hx
    exact absurd hout (by simp)
  · rw [if_neg h]
    exact ⟨⟨fun hx => absurd hx (by simp), fun hx => absurd hx h⟩,
      ⟨fun _ => by omega, fun _ => ⟨_, rfl⟩⟩⟩

/-- C5: the `explicit` policy fixes exactly the variables named in the
supplied Assignment (the returned fixed Assignment is the supplied one and
exactly its variables leave the free-variable list), and it fails with
`InvalidFixingError` precisely when no Assignment was supplied or some
named variable is not a variable of the Objective. -/
theorem explicit_policy_spec (o : Objective) (fx : Option Assignment) :
    (fixExplicit o fx = .error .invalidFixing ↔
        fx = none ∨ ∃ f, fx = some f ∧ ∃ p ∈ f, p.1 ∉ o.varList)
      ∧ (∀ f out, fx = some f → fixExplicit o fx = .ok out →
          out.1 = f ∧ out.2 = reduce o f ∧
            out.2.varList = o.varList.filter (fun v => !(isFixed f v))) := by
  constructor
  · cases fx with
    | none => simp [fixExplicit]
    | some f =>
      by_cases hall : f.all (fun p => decide (p.1 ∈ o.varList))
      · simp only [fixExplicit, if_pos hall]
        simp only [List.all_eq_true, decide_eq_true_eq] at hall
        simp only [reduceCtorEq, false_iff, not_or]
        refine ⟨by simp, ?_⟩
        rintro ⟨g, hg, p, hp, hmem⟩
        exact hmem (hall p ((Option.some.injEq _ _).mp hg ▸ hp))
      · simp only [fixExplicit, if_neg hall]
        simp only [List.all_eq_true, decide_eq_true_eq, not_forall] at hall
        obtain ⟨p, hp, hnot⟩ := hall
        simp only [true_iff]
        exact .inr ⟨f, rfl, p, hp, hnot⟩
  · rintro f out rfl hok
    by_cases hall : f.all (fun p => decide (p.1 ∈ o.varList))
    · simp only [fixExplicit, if_pos hall, Except.ok.injEq] at hok
      subst hok
      exact ⟨rfl, rfl, reduce_varList o f⟩
    · simp [fixExplicit, if_neg hall] at hok

/-- C2: the merge step re-inserts the fixed Assignment into every Sample of
the inner SampleSet, and the energy it recomputes against the original
Objective equals the original Objective evaluated directly at the
reconstructed full Assignment (round-trip law). -/
theorem merge_round_trip (o : Objective) (fixed : Assignment) (ss : SampleSet)
    (s : Sample) (hs : s ∈ mergeSampleSet o fixed ss) :
    s.energy = o.energy s.assignment
      ∧ ∃ t ∈ ss, s.assignment = fixed ++ t.assignment ∧ s.numOcc = t.numOcc := by
  obtain ⟨t, ht, rfl⟩ := List.mem_map.mp hs
  exact ⟨rfl, t, ht, rfl, rfl⟩

theorem merge_round_trip_witness :
    (mergeSample objAB [(0, 1)] ⟨[(1, -1)], 5, 2⟩).energy
        = objAB.energy (mergeSample objAB [(0, 1)] ⟨[(1, -1)], 5, 2⟩).assignment
      ∧ ∃ t ∈ [(⟨[(1, -1)], 5, 2⟩ : Sample)],
          (mergeSample objAB [(0, 1)] ⟨[(1, -1)], 5, 2⟩).assignment
              = [(0, 1)] ++ t.assignment
            ∧ (mergeSample objAB [(0, 1)] ⟨[(1, -1)], 5, 2⟩).numOcc = t.numOcc :=
  merge_round_trip objAB [(0, 1)] [⟨[(1, -1)], 5, 2⟩] _ (List.mem_singleton.mpr rfl)

/-- C10: every Sample of the SampleSet the composite returns agrees with
the fixed Assignment on every fixed variable: the fixed values are present,
unaltered, in all returned samples. -/
theorem fixed_values_preserved (inner : Sampler) (o : Objective)
    (fixed : Assignment) (s : Sample) (v : Var) (x : Int)
    (hs : s ∈ fvSampleWith inner o fixed) (hv : lookupVar fixed v = some x) :
    lookupVar s.assignment v = some x := by
  simp only [fvSampleWith] at hs
  split at hs
  · rw [List.mem_singleton.mp hs]
    exact hv
  · obtain ⟨t, _, rfl⟩ := List.mem_map.mp hs
    exact lookupVar_append_of_isSome hv

theorem fixed_values_preserved_witness :
    lookupVar (mergeSample objAB [(0, 1)] ⟨[(1, -1)], 5, 2⟩).assignment 0 = some 1 :=
  fixed_values_preserved (fun _ => [⟨[(1, -1)], 5, 2⟩]) objAB [(0, 1)]
    (mergeSample objAB [(0, 1)] ⟨[(1, -1)], 5, 2⟩) 0 1 (by decide) rfl

/-- C4: when fixing leaves zero free variables the inner sampler is not
invoked (the result is the same for every inner sampler) and the merged
SampleSet is the single Sample equal to the fixed Assignment with its energy
computed directly; in particular, for the Ising Objective with linear bias 1
on `a` and no quadratic terms, explicit fixing with `a := -1` yields the
single Sample `a := -1` with energy `-1`. -/
theorem no_free_variables_skips_inner (o : Objective) (fixed : Assignment)
    (h : (reduce o fixed).varList = []) :
    (∀ inner : Sampler, fvSampleWith inner o fixed
        = [{ assignment := fixed, energy := o.energy fixed, numOcc := 1 }])
      ∧ (∀ inner₁ inner₂ : Sampler,
          fvSampleWith inner₁ o fixed = fvSampleWith inner₂ o fixed)
      ∧ (∀ inner : Sampler, fvSampleExplicit inner isingA (some [(0, -1)])
          = .ok [{ assignment := [(0, -1)], energy := -1, numOcc := 1 }]) := by
  refine ⟨fun inner => ?_, fun inner₁ inner₂ => ?_, fun inner => rfl⟩
  · simp [fvSampleWith, h]
  · simp [fvSampleWith, h]

theorem no_free_variables_skips_inner_witness :
    (∀ inner : Sampler, fvSampleWith inner isingA [(0, -1)]
        = [{ assignment := [(0, -1)], energy := isingA.energy [(0, -1)], numOcc := 1 }])
      ∧ (∀ inner₁ inner₂ : Sampler,
          fvSampleWith inner₁ isingA [(0, -1)] = fvSampleWith inner₂ isingA [(0, -1)])
      ∧ (∀ inner : Sampler, fvSampleExplicit inner isingA (some [(0, -1)])
          = .ok [{ assignment := [(0, -1)], energy := -1, numOcc := 1 }]) :=
  no_free_variables_skips_inner isingA [(0, -1)] rfl

theorem lookupVar_reduce_linear (lin : List (Var × Int)) (fixed : Assignment)
    (g : Var → Int) (u : Var) (hu : isFixed fixed u = false) :
    lookupVar
        ((lin.filter (fun p => !(isFixed fixed p.1))).map (fun p => (p.1, p.2 + g p.1))) u
      = (lookupVar lin u).map (fun y => y + g u) := by
  induction lin with
  | nil => rfl
  | cons p rest ih =>
    by_cases hp : p.1 = u
    · rw [show p = (u, p.2) from by rw [← hp]]
      simp [List.filter_cons, hu, lookupVar]
    · by_cases hf : isFixed fixed p.1
      · simpa [List.filter_cons, hf, lookupVar, hp] using ih
      · simp only [Bool.not_eq_true] at hf
        simp [List.filter_cons, hf, lookupVar, hp, ih]

/-- C8: the ReducedObjective ranges over exactly the non-fixed variables,
each free variable's linear coefficient equals its original coefficient plus
the sum, over quadratic entries pairing it with a fixed variable `v`, of
`J(v, u) * value(v)` (bias propagation), and the quadratic terms between
free variables are kept unchanged. -/
theorem reduced_objective_spec (o : Objective) (fixed : Assignment) (u : Var)
    (hu : u ∈ o.varList) (hfree : isFixed fixed u = false) :
    (reduce o fixed).varList = o.varList.filter (fun v => !(isFixed fixed v))
      ∧ (reduce o fixed).quadratic
          = o.quadratic.filter (fun q => !(isFixed fixed q.1.1) && !(isFixed fixed q.1.2))
      ∧ linCoeff (reduce o fixed) u
          = linCoeff o u + (o.quadratic.map (contribTo fixed u)).sum := by
  refine ⟨reduce_varList o fixed, rfl, ?_⟩
  obtain ⟨y, hy⟩ := lookupVar_isSome_of_mem hu
  simp only [linCoeff, reduce,
    lookupVar_reduce_linear o.linear fixed
      (fun w => (o.quadratic.map (contribTo fixed w)).sum) u hfree, hy]
  rfl

theorem reduced_objective_spec_witness :
    (reduce objAB [(0, 1)]).varList
        = objAB.varList.filter (fun v => !(isFixed [(0, 1)] v))
      ∧ (reduce objAB [(0, 1)]).quadratic
          = objAB.quadratic.filter
              (fun q => !(isFixed [(0, 1)] q.1.1) && !(isFixed [(0, 1)] q.1.2))
      ∧ linCoeff (reduce objAB [(0, 1)]) 1
          = linCoeff objAB 1 + (objAB.quadratic.map (contribTo [(0, 1)] 1)).sum :=
  reduced_objective_spec objAB [(0, 1)] 1 (by decide) (by decide)

/-- C1: under `strict = true` the roof-duality policy fixes a variable only
when the oracle reports its value forced in every optimal assignment, while
`strict = false` also fixes every variable whose value is optimal in at
least one found optimal assignment; on the two-variable Objective with zero
linear terms and quadratic coefficient `-1` between `a` and `b`,
`strict = true` fixes zero variables and `strict = false` fixes both
variables to `+1`, which is one of the two ground states (its energy `-1`
is minimal over all spin assignments). -/
theorem roof_duality_strictness :
    (∀ (oracle : Oracle) (v : Var) (x : Int),
        (v, x) ∈ fixRoofDuality oracle true →
          ∃ e ∈ oracle, e.var = v ∧ e.value = x ∧ e.forced = true)
      ∧ (∀ (oracle : Oracle), ∀ e ∈ oracle,
          (e.var, e.value) ∈ fixRoofDuality oracle false)
      ∧ fixRoofDuality oracleAB true = []
      ∧ fixRoofDuality oracleAB false = [(0, 1), (1, 1)]
      ∧ objAB.energy [(0, 1), (1, 1)] = -1
      ∧ (∀ a b : Bool, -1 ≤ objAB.energy [(0, spin a), (1, spin b)]) := by
  refine ⟨?_, ?_, rfl, rfl, by decide, by decide⟩
  · intro oracle v x hvx
    simp only [fixRoofDuality, if_pos rfl] at hvx
    obtain ⟨e, he, heq⟩ := List.mem_map.mp hvx
    obtain ⟨he1, he2⟩ := List.mem_filter.mp he
    exact ⟨e, he1, (Prod.mk.injEq _ _ _ _).mp heq |>.1, (Prod.mk.injEq _ _ _ _).mp heq |>.2, he2⟩
  · intro oracle e he
    simpa [fixRoofDuality] using List.mem_map_of_mem (fun e => (e.var, e.value)) he

theorem sortByEnergy_stable (ss : SampleSet) (e : Int) :
    (sortByEnergy ss).filter (fun s => s.energy == e)
      = ss.filter (fun s => s.energy == e) := by
  have hperm : List.Perm (sortByEnergy ss) ss := List.perm_insertionSort energyLE ss
  have hsub : List.Sublist (ss.filter (fun s => s.energy == e)) (sortByEnergy ss) := by
    apply List.sublist_insertionSort
    · apply List.pairwise_of_forall_mem_list
      intro a ha b hb
      have ha2 : a.energy = e := by simpa using (List.mem_filter.mp ha).2
      have hb2 : b.energy = e := by simpa using (List.mem_filter.mp hb).2
      show a.energy ≤ b.energy
      omega
    · exact List.filter_sublist ss
  have hself : (ss.filter (fun s => s.energy == e)).filter (fun s => s.energy == e)
      = ss.filter (fun s => s.energy == e) :=
    List.filter_eq_self.mpr (fun a ha => (List.mem_filter.mp ha).2)
  have hsub2 : List.Sublist (ss.filter (fun s => s.energy == e))
      ((sortByEnergy ss).filter (fun s => s.energy == e)) := by
    have h2 := hsub.filter (fun s => s.energy == e)
    rwa [hself] at h2
  have hlen : (ss.filter (fun s => s.energy == e)).length
      = ((sortByEnergy ss).filter (fun s => s.energy == e)).length :=
    ((hperm.filter _).length_eq).symm
  exact (hsub2.eq_of_length hlen).symm

/-- C3 (amended): for every SampleSet and integer count `n ≥ 0`,
`truncate` with `sorted_by_energy = true` returns the first `n` entries of
the stable ascending sort of the input by energy (a permutation of the
input in which ties keep the original order); when `n ≥ |S|` the result is
that full stable sort, which equals `S` itself whenever `S` is already
sorted ascending by energy; with `sorted_by_energy = false` the first `n`
entries are returned in original order, so `n ≥ |S|` gives `S` unchanged;
`n = 0` gives the empty SampleSet. -/
theorem truncate_spec (ss : SampleSet) (n : Int) (hn : 0 ≤ n) :
    truncate ss n true = .ok ((sortByEnergy ss).take n.toNat)
      ∧ truncate ss n false = .ok (ss.take n.toNat)
      ∧ List.Sorted energyLE (sortByEnergy ss)
      ∧ List.Perm (sortByEnergy ss) ss
      ∧ (∀ e : Int, (sortByEnergy ss).filter (fun s => s.energy == e)
            = ss.filter (fun s => s.energy == e))
      ∧ (ss.length ≤ n.toNat → truncate ss n false = .ok ss)
      ∧ (ss.length ≤ n.toNat → List.Sorted energyLE ss → truncate ss n true = .ok ss)
      ∧ (n = 0 → truncate ss n true = .ok [] ∧ truncate ss n false = .ok []) := by
  have hnn : ¬n < 0 := by omega
  refine ⟨by simp [truncate, hnn], by simp [truncate, hnn],
    List.sorted_insertionSort energyLE ss, List.perm_insertionSort energyLE ss,
    sortByEnergy_stable ss, ?_, ?_, ?_⟩
  · intro hle
    simp [truncate, hnn, List.take_of_length_le hle]
  · intro hle hsorted
    have heq : sortByEnergy ss = ss := hsorted.insertionSort_eq
    rw [show sortByEnergy ss = ss.insertionSort energyLE from rfl] at heq
    simp [truncate, hnn, sortByEnergy, heq, List.take_of_length_le hle]
  · rintro rfl
    simp [truncate]

theorem truncate_spec_witness :
    truncate [sampleHi, sampleLo] 3 true
        = .ok ((sortByEnergy [sampleHi, sampleLo]).take (3 : Int).toNat)
      ∧ truncate [sampleHi, sampleLo] 3 false
          = .ok ([sampleHi, sampleLo].take (3 : Int).toNat)
      ∧ List.Sorted energyLE (sortByEnergy [sampleHi, sampleLo])
      ∧ List.Perm (sortByEnergy [sampleHi, sampleLo]) [sampleHi, sampleLo]
      ∧ (∀ e : Int, (sortByEnergy [sampleHi, sampleLo]).filter (fun s => s.energy == e)
            = [sampleHi, sampleLo].filter (fun s => s.energy == e))
      ∧ ([sampleHi, sampleLo].length ≤ (3 : Int).toNat →
          truncate [sampleHi, sampleLo] 3 false = .ok [sampleHi, sampleLo])
      ∧ ([sampleHi, sampleLo].length ≤ (3 : Int).toNat →
          List.Sorted energyLE [sampleHi, sampleLo] →
            truncate [sampleHi, sampleLo] 3 true = .ok [sampleHi, sampleLo])
      ∧ ((3 : Int) = 0 → truncate [sampleHi, sampleLo] 3 true = .ok []
          ∧ truncate [sampleHi, sampleLo] 3 false = .ok []) :=
  truncate_spec [sampleHi, sampleLo] 3 (by decide)

/-- C3 counterexample: on the two-sample SampleSet whose first entry has
the higher energy, truncating with `sorted_by_energy = true` and a count
equal to the SampleSet's size does not return the SampleSet unchanged (it
returns the sorted permutation), refuting the claim as stated. -/
theorem truncate_unsorted_counterexample :
    truncate [sampleHi, sampleLo] 2 true ≠ .ok [sampleHi, sampleLo] := by
  intro h
  have h2 : ([sampleLo, sampleHi] : SampleSet) = [sampleHi, sampleLo] :=
    Except.ok.inj h
  exact absurd h2 (by decide)

theorem heapRead_alloc_self (h : Heap) (ss : SampleSet) :
    heapRead (h ++ [ss]) h.length = ss := by
  simp [heapRead, List.getD_eq_getElem?_getD,
    List.getElem?_append_right (Nat.le_refl h.length)]

theorem heapRead_append_add (h l : Heap) (i : Nat) :
    heapRead (h ++ l) (h.length + i) = heapRead l i := by
  simp [heapRead, List.getD_eq_getElem?_getD,
    List.getElem?_append_right (Nat.le_add_right h.length i)]

theorem heapRead_write_self (h : Heap) (r : Nat) (ss : SampleSet)
    (hr : r < h.length) : heapRead (heapWrite h r ss) r = ss := by
  simp [heapRead, heapWrite, List.getD_eq_getElem?_getD, List.getElem?_set_self hr]

theorem heapRead_write_ne (h : Heap) (r r2 : Nat) (ss : SampleSet)
    (hne : r ≠ r2) : heapRead (heapWrite h r ss) r2 = heapRead h r2 := by
  simp [heapRead, heapWrite, List.getD_eq_getElem?_getD, List.getElem?_set_ne hne]

theorem trackedSample_lastInput (child : Sampler) (t : Tracker) (o : Objective)
    (h : Heap) : (trackedSample child t o h).2.1.lastInput = some o := by
  cases hc : t.copyFlag <;> simp [trackedSample, heapAlloc, hc]

theorem trackedSample_copyFlag (child : Sampler) (t : Tracker) (o : Objective)
    (h : Heap) : (trackedSample child t o h).2.1.copyFlag = t.copyFlag := by
  cases hc : t.copyFlag <;> simp [trackedSample, heapAlloc, hc]

theorem trackedSample_outputRead (child : Sampler) (t : Tracker) (o : Objective)
    (h : Heap) :
    (trackedSample child t o h).2.1.outputRead (trackedSample child t o h).2.2
      = some (child o) := by
  cases hc : t.copyFlag
  · simp [trackedSample, heapAlloc, hc, Tracker.outputRead, heapRead_alloc_self]
  · simp [trackedSample, heapAlloc, hc, Tracker.outputRead, heapRead_alloc_self]
    rw [heapRead_append_add]
    rfl

theorem trackedSample_mutation (child : Sampler) (t : Tracker) (o : Objective)
    (h : Heap) (v : SampleSet) :
    (trackedSample child t o h).2.1.outputRead
        (heapWrite (trackedSample child t o h).2.2 (trackedSample child t o h).1 v)
      = (if t.copyFlag then some (child o) else some v) := by
  cases hc : t.copyFlag
  · simp [trackedSample, heapAlloc, hc, Tracker.outputRead]
    rw [heapRead_write_self]
    simp
  · simp [trackedSample, heapAlloc, hc, Tracker.outputRead]
    rw [heapRead_write_ne]
    · rw [heapRead_append_add]
      simp [heapRead, heapRead_alloc_self]
    · omega

theorem runCalls_append (child : Sampler) (os : List Objective) (o : Objective)
    (s : Nat × Tracker × Heap) :
    runCalls child (os ++ [o]) s
      = trackedSample child (runCalls child os s).2.1 o (runCalls child os s).2.2 := by
  induction os generalizing s with
  | nil => rfl
  | cons o2 os2 ih => simp [runCalls, ih]

theorem runCalls_copyFlag (child : Sampler) (os : List Objective)
    (s : Nat × Tracker × Heap) :
    (runCalls child os s).2.1.copyFlag = s.2.1.copyFlag := by
  induction os generalizing s with
  | nil => rfl
  | cons o os ih => simp [runCalls, ih, trackedSample_copyFlag]

/-- C9: after every sequence of calls through the tracking component, the
component's read-only recorded state holds exactly the input argument and
the output SampleSet of the most recent call only, and the deep-copy flag
controls whether the stored output reference is insulated from a later
in-place mutation of the sample set the child returned (insulated when set,
aliased when not). -/
theorem tracking_records_last_call (child : Sampler) (copy : Bool)
    (os : List Objective) (o : Objective) (v : SampleSet) :
    (runCalls child (os ++ [o]) (0, ⟨none, none, copy⟩, [])).2.1.inputRead = some o
      ∧ (runCalls child (os ++ [o]) (0, ⟨none, none, copy⟩, [])).2.1.outputRead
          (runCalls child (os ++ [o]) (0, ⟨none, none, copy⟩, [])).2.2 = some (child o)
      ∧ (runCalls child (os ++ [o]) (0, ⟨none, none, copy⟩, [])).2.1.outputRead
          (heapWrite (runCalls child (os ++ [o]) (0, ⟨none, none, copy⟩, [])).2.2
            (runCalls child (os ++ [o]) (0, ⟨none, none, copy⟩, [])).1 v)
        = (if copy then some (child o) else some v) := by
  rw [runCalls_append]
  refine ⟨trackedSample_lastInput child _ o _, trackedSample_outputRead child _ o _, ?_⟩
  rw [trackedSample_mutation, runCalls_copyFlag]

end OceanComposites
